import Mathlib

/-!
Verification of the 0/1 knapsack solvers in `src/algorithms.cpp` of this
repository: the recursive brute force (`knapsackRecursive` / `KBruteForce`),
the dynamic programming solver (`KDynamic`), the greedy heuristic (`KProxy`)
and the branch-and-bound solver (`branchAndBound` / `solveILP`).

Modelling conventions, applied uniformly:

* C++ `int` weights, profits and capacities are modelled as `Nat`: every
  property under verification quantifies only over non-negative values, and
  none reaches the `int` overflow range, so machine truncation never matters
  for the modelled runs.  Pallet ids are modelled as `Int`.
* The C++ recursions walk a constant `std::vector<Pallet>` with an `index`
  argument that only ever grows; the embedding recurses on the remaining
  suffix of the list, which is the same traversal.  The dynamic-programming
  tables are indexed exactly as in the source and are modelled as functions
  of the two indices.
* Mutable reference parameters (`bestProfit`, `bestSubset`, `bestWeight`,
  `bestSelection`) become explicit state passed in and returned.
* `std::cout` reporting is a side effect outside the functional contract;
  each model returns the data the C++ function returns or stores, including
  the selection the C++ code accumulates in a local vector and prints.
* The greedy comparator divides profits by weights after a cast to `double`;
  it is modelled with exact rational division.  On the inputs evaluated here
  the quotients are exactly representable, so the orders agree.
-/

/-- The record `struct Pallet` of `Pallet.h`: id, weight and profit.  Its
member functions `getID`, `getWeight` and `getProfit` are plain field
accessors and are modelled by the fields themselves. -/
structure Pallet where
  id : Int
  weight : Nat
  profit : Nat
deriving DecidableEq

/-- Total weight of a list of pallets (specification-side helper). -/
def weightSum (l : List Pallet) : Nat := (l.map Pallet.weight).sum

/-- Total profit of a list of pallets (specification-side helper). -/
def profitSum (l : List Pallet) : Nat := (l.map Pallet.profit).sum

/-- Specification function: the optimal 0/1 knapsack profit over all
sub-lists of `l` whose total weight is at most `C`.  The lemmas
`profitSum_le_bestP` and `bestP_attained` below establish that this is
exactly the maximum feasible profit. -/
def bestP (C : Nat) : List Pallet → Nat
  | [] => 0
  | p :: ps =>
    if p.weight ≤ C then
      max (bestP C ps) (p.profit + bestP (C - p.weight) ps)
    else bestP C ps

/-- `knapsackRecursive` of `algorithms.cpp` (lines 42-66).  The exclude
branch recurses first, then the include branch under the capacity guard
`pallets[index].weight <= remainingCapacity`; at terminal depth the best
pair `(bestProfit, bestSubset)` is replaced when the candidate has strictly
more profit, or equal profit and strictly fewer pallets.  The C++ index
argument is modelled by recursing on the remaining suffix, and the two
mutable reference results by the state pair `best`. -/
def knapsackRecursive :
    List Pallet → Nat → Nat → List Int → Nat × List Int → Nat × List Int
  | [], _, currentProfit, currentSubset, best =>
    if currentProfit > best.1 ∨
        (currentProfit = best.1 ∧ currentSubset.length < best.2.length) then
      (currentProfit, currentSubset)
    else best
  | p :: rest, remainingCapacity, currentProfit, currentSubset, best =>
    let best1 := knapsackRecursive rest remainingCapacity currentProfit currentSubset best
    if p.weight ≤ remainingCapacity then
      knapsackRecursive rest (remainingCapacity - p.weight)
        (currentProfit + p.profit) (currentSubset ++ [p.id]) best1
    else best1

/-- `KBruteForce` of `algorithms.cpp` (lines 77-96): runs the recursion from
index 0 with empty accumulators and `bestProfit = 0`.  The first component
is the returned profit, the second the selection the function prints. -/
def KBruteForce (capacity : Nat) (pallets : List Pallet) : Nat × List Int :=
  knapsackRecursive pallets capacity 0 [] (0, [])

/-- The two tables filled by `KDynamic` (`algorithms.cpp` lines 116-149):
`(dpc l i w).1` is `dp[i][w]` and `(dpc l i w).2` is `count[i][w]`.  Row 0
is all zeroes (the freshly constructed vectors); row `i+1` uses pallet
`pallets[i]` exactly as the loop body does, including the tie case that
stores the smaller pallet count.  The `none` branch of the lookup is out of
range and never reached for `i < l.length`. -/
def dpc (l : List Pallet) : Nat → Nat → Nat × Nat
  | 0, _ => (0, 0)
  | i + 1, w =>
    match l[i]? with
    | none => dpc l i w
    | some p =>
      if p.weight ≤ w then
        let inclui := p.profit + (dpc l i (w - p.weight)).1
        let exclui := (dpc l i w).1
        if inclui > exclui then (inclui, (dpc l i (w - p.weight)).2 + 1)
        else if inclui < exclui then (exclui, (dpc l i w).2)
        else (inclui, min ((dpc l i (w - p.weight)).2 + 1) ((dpc l i w).2))
      else dpc l i w

/-- The backward reconstruction loop of `KDynamic` (`algorithms.cpp` lines
152-160), before the final `std::reverse`: starting from `(i, w)` it pushes
`pallets[i-1].id` and decreases `w` by that weight whenever
`dp[i][w] != dp[i-1][w]`, and it stops as soon as `i` or `w` reaches 0.
The result lists the chosen ids in decreasing index order, exactly as the
C++ `selectedIDs` vector holds them before being reversed. -/
def recRev (l : List Pallet) : Nat → Nat → List Int
  | 0, _ => []
  | i + 1, w =>
    if w = 0 then []
    else
      match l[i]? with
      | none => recRev l i w
      | some p =>
        if (dpc l (i + 1) w).1 ≠ (dpc l i w).1 then
          p.id :: recRev l i (w - p.weight)
        else recRev l i w

/-- `KDynamic` of `algorithms.cpp` (lines 112-175): fills both tables,
returns `dp[n][capacity]`, and prints the selection reconstructed by the
backward walk after reversing it.  Modelled as the returned profit paired
with the reconstructed (already reversed) selection. -/
def KDynamic (capacity : Nat) (pallets : List Pallet) : Nat × List Int :=
  ((dpc pallets pallets.length capacity).1,
   (recRev pallets pallets.length capacity).reverse)

/-- The profit table of `KDynamic` recomputed with the auxiliary `count`
table and its tie-break bookkeeping deleted: the tie branch of the loop
stores `inclui` in `dp[i][w]` either way, so only the `count` updates
disappear.  Used to state claim C10. -/
def dpNoCount (l : List Pallet) : Nat → Nat → Nat
  | 0, _ => 0
  | i + 1, w =>
    match l[i]? with
    | none => dpNoCount l i w
    | some p =>
      if p.weight ≤ w then
        let inclui := p.profit + dpNoCount l i (w - p.weight)
        let exclui := dpNoCount l i w
        if inclui > exclui then inclui
        else if inclui < exclui then exclui
        else inclui
      else dpNoCount l i w

/-- The backward reconstruction walk over the count-free table
`dpNoCount`; the walk itself is unchanged since it only ever reads the
profit table. -/
def recRevNoCount (l : List Pallet) : Nat → Nat → List Int
  | 0, _ => []
  | i + 1, w =>
    if w = 0 then []
    else
      match l[i]? with
      | none => recRevNoCount l i w
      | some p =>
        if dpNoCount l (i + 1) w ≠ dpNoCount l i w then
          p.id :: recRevNoCount l i (w - p.weight)
        else recRevNoCount l i w

/-- The variant of `KDynamic` with the `count` table removed (claim C10). -/
def KDynamicNoCount (capacity : Nat) (pallets : List Pallet) : Nat × List Int :=
  (dpNoCount pallets pallets.length capacity,
   (recRevNoCount pallets pallets.length capacity).reverse)

/-- The comparator passed to `std::sort` by `KProxy` (`algorithms.cpp`
lines 197-201): profit-to-weight ratio of `a` strictly greater than that of
`b`, with the double-precision division modelled as exact rational
division. -/
def ratioGT (a b : Pallet) : Bool :=
  decide ((a.profit : ℚ) / (a.weight : ℚ) > (b.profit : ℚ) / (b.weight : ℚ))

/-- Ordered insertion with respect to `ratioGT`: the new pallet goes in
front of the first element it strictly beats, after all elements it does
not, so equal-ratio pallets keep their input order. -/
def insertByRatio (p : Pallet) : List Pallet → List Pallet
  | [] => [p]
  | q :: qs => if ratioGT p q then p :: q :: qs else q :: insertByRatio p qs

/-- The sorting step of `KProxy`: a deterministic stable sort consistent
with the `ratioGT` comparator.  `std::sort` leaves the order of equal-ratio
elements unspecified; the claims proved below depend only on the sorted
list being a permutation of the input, or on instances whose ratios are
pairwise distinct, where every comparator-consistent sort agrees. -/
def sortByRatio : List Pallet → List Pallet
  | [] => []
  | p :: ps => insertByRatio p (sortByRatio ps)

/-- The greedy filling loop of `KProxy` (`algorithms.cpp` lines 207-213):
walk the sorted list and admit each pallet whose weight still fits,
accumulating `totalProfit`, `totalWeight` and `selectedIDs`. -/
def greedyGo (capacity : Nat) :
    List Pallet → Nat → Nat → List Int → Nat × Nat × List Int
  | [], totalProfit, totalWeight, selectedIDs =>
    (totalProfit, totalWeight, selectedIDs)
  | p :: rest, totalProfit, totalWeight, selectedIDs =>
    if totalWeight + p.weight ≤ capacity then
      greedyGo capacity rest (totalProfit + p.profit) (totalWeight + p.weight)
        (selectedIDs ++ [p.id])
    else greedyGo capacity rest totalProfit totalWeight selectedIDs

/-- `KProxy` of `algorithms.cpp` (lines 193-229): sort by decreasing ratio,
fill greedily, return the total profit (printing the selection and the
total weight).  Modelled as the triple
`(totalProfit, totalWeight, selectedIDs)`. -/
def KProxy (capacity : Nat) (pallets : List Pallet) : Nat × Nat × List Int :=
  greedyGo capacity (sortByRatio pallets) 0 0 []

/-- The three mutable best-so-far trackers of `branchAndBound`:
`bestSelection`, `bestProfit` and `bestWeight`. -/
structure BBState where
  bestSelection : List Int
  bestProfit : Nat
  bestWeight : Nat
deriving DecidableEq

/-- The initial `bestWeight` sentinel `INT_MAX` of `solveILP`. -/
def intMax : Nat := 2147483647

/-- The recursive body of `branchAndBound` (`algorithms.cpp` lines
254-289) for a non-empty pallet vector: the include branch is tried first,
guarded by `currWeight + weight <= capacity`, then the exclude branch; at
terminal depth the best state is replaced under the three-level tie-break
(more profit, else fewer pallets, else less weight).  The constant vector
plus index of the C++ code is modelled by recursing on the remaining
suffix. -/
def bbGo (capacity : Nat) : List Pallet → Nat → Nat → List Int → BBState → BBState
  | [], currWeight, currProfit, currSelection, st =>
    if currProfit > st.bestProfit ∨
        (currProfit = st.bestProfit ∧
          (currSelection.length < st.bestSelection.length ∨
            (currSelection.length = st.bestSelection.length ∧
              currWeight < st.bestWeight))) then
      ⟨currSelection, currProfit, currWeight⟩
    else st
  | current :: rest, currWeight, currProfit, currSelection, st =>
    let st1 :=
      if currWeight + current.weight ≤ capacity then
        bbGo capacity rest (currWeight + current.weight)
          (currProfit + current.profit) (currSelection ++ [current.id]) st
      else st
    bbGo capacity rest currWeight currProfit currSelection st1

/-- `branchAndBound` of `algorithms.cpp` (lines 254-289).  The guard
`if (pallets.empty()) return;` fires at every level when the vector is
empty and never when it is not (the vector is constant through the
recursion), so it is modelled as a single top-level short-circuit in front
of the recursion `bbGo`. -/
def branchAndBound (pallets : List Pallet) (capacity currWeight currProfit : Nat)
    (currSelection : List Int) (st : BBState) : BBState :=
  if pallets.isEmpty then st
  else bbGo capacity pallets currWeight currProfit currSelection st

/-- `struct ILPResult` of `algorithms.h`. -/
structure ILPResult where
  selectedPallets : List Int
  totalProfit : Nat
  totalWeight : Nat
deriving DecidableEq

/-- The weight lookup `solveILP` performs per selected id (`algorithms.cpp`
lines 313-320): the first pallet whose `getID()` matches contributes its
weight, a missing id contributes nothing. -/
def weightOfId (pallets : List Pallet) (i : Int) : Nat :=
  match pallets.find? (fun p => p.id == i) with
  | some p => p.weight
  | none => 0

/-- The analogous profit lookup by id, used to state what "the profit of
the items named in a selection" means in the claims. -/
def profitOfId (pallets : List Pallet) (i : Int) : Nat :=
  match pallets.find? (fun p => p.id == i) with
  | some p => p.profit
  | none => 0

/-- `solveILP` of `algorithms.cpp` (lines 301-322): run `branchAndBound`
from index 0 with empty selection, `bestProfit = 0` and the `INT_MAX`
weight sentinel, then recompute `totalWeight` by looking each selected id
up in the pallet list.  The timing instrumentation is a side effect and is
not modelled. -/
def solveILP (pallets : List Pallet) (capacity : Nat) : ILPResult :=
  let st := branchAndBound pallets capacity 0 0 [] ⟨[], 0, intMax⟩
  { selectedPallets := st.bestSelection
    totalProfit := st.bestProfit
    totalWeight := (st.bestSelection.map (weightOfId pallets)).sum }

/-- Comparison of best-so-far pairs used by the brute-force terminal step:
`bfGE r c` says the pair `r` is at least as good as the candidate `c` under
the two-level tie-break (profit first, then fewer pallets).  It is the
negation of the replacement test of `knapsackRecursive`. -/
def bfGE (r c : Nat × List Int) : Prop :=
  c.1 ≤ r.1 ∧ (c.1 = r.1 → r.2.length ≤ c.2.length)

/-- Comparison of branch-and-bound states: `bbGE r c` says `r` is at least
as good as `c` under the three-level tie-break of `branchAndBound` (profit,
then cardinality, then weight).  It is the negation of the replacement test
of the terminal step. -/
def bbGE (r c : BBState) : Prop :=
  c.bestProfit ≤ r.bestProfit ∧
  (c.bestProfit = r.bestProfit →
    r.bestSelection.length ≤ c.bestSelection.length ∧
    (r.bestSelection.length = c.bestSelection.length → r.bestWeight ≤ c.bestWeight))

@[simp] theorem weightSum_nil : weightSum [] = 0 := rfl

@[simp] theorem weightSum_cons (p : Pallet) (l : List Pallet) :
    weightSum (p :: l) = p.weight + weightSum l := by
  simp [weightSum]

@[simp] theorem profitSum_nil : profitSum [] = 0 := rfl

@[simp] theorem profitSum_cons (p : Pallet) (l : List Pallet) :
    profitSum (p :: l) = p.profit + profitSum l := by
  simp [profitSum]

theorem weightSum_append (l r : List Pallet) :
    weightSum (l ++ r) = weightSum l + weightSum r := by
  simp [weightSum]

theorem profitSum_append (l r : List Pallet) :
    profitSum (l ++ r) = profitSum l + profitSum r := by
  simp [profitSum]

theorem weightSum_perm {l r : List Pallet} (h : l.Perm r) :
    weightSum l = weightSum r :=
  (h.map Pallet.weight).sum_eq

theorem profitSum_perm {l r : List Pallet} (h : l.Perm r) :
    profitSum l = profitSum r :=
  (h.map Pallet.profit).sum_eq

theorem bestP_nil (C : Nat) : bestP C [] = 0 := rfl

/-- Every feasible sub-list earns at most `bestP`. -/
theorem profitSum_le_bestP {S l : List Pallet} (hs : S.Sublist l) :
    ∀ {C : Nat}, weightSum S ≤ C → profitSum S ≤ bestP C l := by
  induction hs with
  | slnil => intro C _; simp [bestP]
  | @cons S l p hs ih =>
    intro C hw
    have h1 := ih hw
    by_cases h : p.weight ≤ C
    · simp only [bestP, if_pos h]
      omega
    · simpa only [bestP, if_neg h] using h1
  | @cons₂ S l p hs ih =>
    intro C hw
    simp only [weightSum_cons] at hw
    have h1 : p.weight ≤ C := by omega
    have h2 : weightSum S ≤ C - p.weight := by omega
    have h3 := ih h2
    simp only [profitSum_cons, bestP, if_pos h1]
    omega

/-- `bestP` is attained by some feasible sub-list. -/
theorem bestP_attained (C : Nat) (l : List Pallet) :
    ∃ S, S.Sublist l ∧ weightSum S ≤ C ∧ profitSum S = bestP C l := by
  induction l generalizing C with
  | nil => exact ⟨[], List.Sublist.refl _, by simp, by simp [bestP]⟩
  | cons p ps ih =>
    by_cases h : p.weight ≤ C
    · by_cases hc : bestP C ps < p.profit + bestP (C - p.weight) ps
      · obtain ⟨S, hs, hw, hp⟩ := ih (C - p.weight)
        refine ⟨p :: S, List.Sublist.cons₂ p hs, ?_, ?_⟩
        · simp only [weightSum_cons]; omega
        · simp only [profitSum_cons, bestP, if_pos h]; omega
      · obtain ⟨S, hs, hw, hp⟩ := ih C
        refine ⟨S, List.Sublist.cons p hs, hw, ?_⟩
        simp only [bestP, if_pos h]; omega
    · obtain ⟨S, hs, hw, hp⟩ := ih C
      refine ⟨S, List.Sublist.cons p hs, hw, ?_⟩
      simp only [bestP, if_neg h]; omega

/-- A feasible sub-permutation also earns at most `bestP`. -/
theorem profitSum_le_bestP_of_subperm {S l : List Pallet} {C : Nat}
    (hs : S.Subperm l) (hw : weightSum S ≤ C) : profitSum S ≤ bestP C l := by
  obtain ⟨T, hT, hTl⟩ := hs
  have h1 : weightSum T ≤ C := by rw [weightSum_perm hT]; exact hw
  have h2 := profitSum_le_bestP hTl h1
  rwa [profitSum_perm hT] at h2

/-- `bestP` only depends on the multiset of pallets. -/
theorem bestP_perm {l r : List Pallet} (h : l.Perm r) (C : Nat) :
    bestP C l = bestP C r := by
  apply Nat.le_antisymm
  · obtain ⟨S, hs, hw, hp⟩ := bestP_attained C l
    rw [← hp]
    exact profitSum_le_bestP_of_subperm (hs.subperm.trans h.subperm) hw
  · obtain ⟨S, hs, hw, hp⟩ := bestP_attained C r
    rw [← hp]
    exact profitSum_le_bestP_of_subperm (hs.subperm.trans h.symm.subperm) hw

/-- Appending one pallet at the end is the same extension step as consing
it at the front. -/
theorem bestP_snoc (C : Nat) (l : List Pallet) (p : Pallet) :
    bestP C (l ++ [p]) =
      if p.weight ≤ C then max (bestP C l) (p.profit + bestP (C - p.weight) l)
      else bestP C l := by
  rw [bestP_perm (List.perm_append_singleton p l) C]
  rfl

/-- The profit component of the paired tables ignores the count table. -/
theorem dpc_fst (l : List Pallet) : ∀ i w, (dpc l i w).1 = dpNoCount l i w := by
  intro i
  induction i with
  | zero => intro w; rfl
  | succ i ih =>
    intro w
    simp only [dpc, dpNoCount]
    cases hget : l[i]? with
    | none => exact ih w
    | some p =>
      by_cases hw : p.weight ≤ w
      · simp only [if_pos hw, ih]
        split_ifs <;> rfl
      · simp only [if_neg hw, ih]

/-- The three-way branch of the loop body computes a maximum. -/
theorem dpNoCount_succ (l : List Pallet) (i w : Nat) {p : Pallet}
    (hget : l[i]? = some p) :
    dpNoCount l (i + 1) w =
      if p.weight ≤ w then
        max (dpNoCount l i w) (p.profit + dpNoCount l i (w - p.weight))
      else dpNoCount l i w := by
  simp only [dpNoCount, hget]
  split_ifs <;> omega

/-- The dynamic programming table agrees with the specification optimum on
the prefix of pallets it has processed. -/
theorem dpNoCount_eq_bestP (l : List Pallet) :
    ∀ i, i ≤ l.length → ∀ w, dpNoCount l i w = bestP w (l.take i) := by
  intro i
  induction i with
  | zero => intro _ w; simp [dpNoCount, bestP]
  | succ i ih =>
    intro hi w
    have hlt : i < l.length := Nat.lt_of_lt_of_le (Nat.lt_succ_self i) hi
    have hget : l[i]? = some l[i] := List.getElem?_eq_getElem hlt
    have htake : l.take (i + 1) = l.take i ++ [l[i]] := by
      rw [List.take_succ, hget]
      rfl
    rw [htake, bestP_snoc, dpNoCount_succ l i w hget]
    simp only [ih (Nat.le_of_lt hlt)]

/-- The profit `KDynamic` returns is the specification optimum. -/
theorem KDynamic_fst (C : Nat) (l : List Pallet) :
    (KDynamic C l).1 = bestP C l := by
  show (dpc l l.length C).1 = bestP C l
  rw [dpc_fst, dpNoCount_eq_bestP l l.length le_rfl, List.take_length]

/-- With positive weights nothing fits into capacity 0, and the table says
so. -/
theorem dpNoCount_zero_of_pos {l : List Pallet} (hpos : ∀ p ∈ l, 0 < p.weight) :
    ∀ i, dpNoCount l i 0 = 0 := by
  intro i
  induction i with
  | zero => rfl
  | succ i ih =>
    cases hget : l[i]? with
    | none => simp only [dpNoCount, hget]; exact ih
    | some p =>
      have hp : p ∈ l := List.getElem?_mem hget
      have hple : ¬ p.weight ≤ 0 := by have := hpos p hp; omega
      simp only [dpNoCount, hget, if_neg hple]
      exact ih

/-- With positive weights the optimum at capacity 0 is 0. -/
theorem bestP_zero_of_pos {l : List Pallet} (hpos : ∀ p ∈ l, 0 < p.weight) :
    bestP 0 l = 0 := by
  induction l with
  | nil => rfl
  | cons p ps ih =>
    have hple : ¬ p.weight ≤ 0 := by
      have := hpos p (List.mem_cons_self p ps)
      omega
    simp only [bestP, if_neg hple]
    exact ih fun q hq => hpos q (List.mem_cons_of_mem p hq)

/-- A list of positive-weight pallets with total weight 0 is empty. -/
theorem eq_nil_of_weightSum_zero {S : List Pallet} (hpos : ∀ p ∈ S, 0 < p.weight)
    (h : weightSum S = 0) : S = [] := by
  cases S with
  | nil => rfl
  | cons p ps =>
    exfalso
    have := hpos p (List.mem_cons_self p ps)
    simp only [weightSum_cons] at h
    omega

/-- When the walk records pallet `i`, that pallet fits and the table entry
splits off exactly its profit. -/
theorem dpNoCount_succ_ne {l : List Pallet} {i w : Nat} {p : Pallet}
    (hget : l[i]? = some p)
    (hne : dpNoCount l (i + 1) w ≠ dpNoCount l i w) :
    p.weight ≤ w ∧
      dpNoCount l (i + 1) w = p.profit + dpNoCount l i (w - p.weight) := by
  rw [dpNoCount_succ l i w hget] at hne ⊢
  by_cases hw : p.weight ≤ w
  · rw [if_pos hw] at hne ⊢
    exact ⟨hw, by omega⟩
  · rw [if_neg hw] at hne
    exact absurd rfl hne

/-- The reconstruction walk stops immediately at capacity 0. -/
theorem recRev_zero (l : List Pallet) (i : Nat) : recRev l i 0 = [] := by
  cases i <;> simp [recRev]

/-- The reconstruction walk over the first `i` pallets returns the ids (in
reverse discovery order) of a feasible sub-list whose profit is exactly the
table entry it starts from — provided all weights are positive, which rules
out profit stranded at capacity 0 where the walk stops early. -/
theorem recRev_spec (l : List Pallet) (hpos : ∀ p ∈ l, 0 < p.weight) :
    ∀ i, i ≤ l.length → ∀ w, ∃ S, S.Sublist (l.take i) ∧
      recRev l i w = (S.map Pallet.id).reverse ∧
      weightSum S ≤ w ∧ profitSum S = dpNoCount l i w := by
  intro i
  induction i with
  | zero =>
    intro _ w
    exact ⟨[], List.Sublist.refl _, by simp [recRev], by simp, by simp [dpNoCount]⟩
  | succ i ih =>
    intro hi w
    have hlt : i < l.length := Nat.lt_of_lt_of_le (Nat.lt_succ_self i) hi
    have hget : l[i]? = some l[i] := List.getElem?_eq_getElem hlt
    have htake : l.take (i + 1) = l.take i ++ [l[i]] := by
      rw [List.take_succ, hget]
      rfl
    by_cases hw0 : w = 0
    · subst hw0
      refine ⟨[], List.nil_sublist _, by simp [recRev_zero], by simp, ?_⟩
      rw [dpNoCount_zero_of_pos hpos]
      rfl
    · have hrec : recRev l (i + 1) w =
          if dpNoCount l (i + 1) w ≠ dpNoCount l i w then
            l[i].id :: recRev l i (w - l[i].weight)
          else recRev l i w := by
        simp only [recRev, if_neg hw0, hget, dpc_fst]
      by_cases hne : dpNoCount l (i + 1) w ≠ dpNoCount l i w
      · obtain ⟨hwle, heq⟩ := dpNoCount_succ_ne hget hne
        obtain ⟨S, hs, hr, hwS, hpS⟩ := ih (Nat.le_of_lt hlt) (w - l[i].weight)
        refine ⟨S ++ [l[i]], ?_, ?_, ?_, ?_⟩
        · rw [htake]
          exact hs.append (List.Sublist.refl _)
        · rw [hrec, if_pos hne, hr]
          simp
        · rw [weightSum_append]
          simp only [weightSum_cons, weightSum_nil]
          omega
        · rw [profitSum_append, heq, hpS]
          simp only [profitSum_cons, profitSum_nil]
          omega
      · obtain ⟨S, hs, hr, hwS, hpS⟩ := ih (Nat.le_of_lt hlt) w
        push_neg at hne
        refine ⟨S, ?_, ?_, hwS, ?_⟩
        · rw [htake]
          exact hs.trans (List.sublist_append_left _ _)
        · rw [hrec, if_neg (by simpa using hne), hr]
        · rw [hne]
          exact hpS

/-- The selection `KDynamic` reports: the ids of a feasible sub-list whose
profit equals the profit `KDynamic` returns (positive weights). -/
theorem KDynamic_spec (C : Nat) (l : List Pallet) (hpos : ∀ p ∈ l, 0 < p.weight) :
    ∃ S, S.Sublist l ∧ (KDynamic C l).2 = S.map Pallet.id ∧
      weightSum S ≤ C ∧ profitSum S = (KDynamic C l).1 := by
  obtain ⟨S, hS, hrec, hw, hp⟩ := recRev_spec l hpos l.length le_rfl C
  rw [List.take_length] at hS
  refine ⟨S, hS, ?_, hw, ?_⟩
  · show (recRev l l.length C).reverse = _
    rw [hrec, List.reverse_reverse]
  · show _ = (dpc l l.length C).1
    rw [dpc_fst]
    exact hp

/-- The reconstruction walk is unchanged by deleting the count table: it
only consults the profit table. -/
theorem recRev_eq_noCount (l : List Pallet) :
    ∀ i w, recRev l i w = recRevNoCount l i w := by
  intro i
  induction i with
  | zero => intro w; rfl
  | succ i ih =>
    intro w
    simp only [recRev, recRevNoCount, dpc_fst]
    cases hget : l[i]? with
    | none => simp [ih]
    | some p =>
      by_cases hw0 : w = 0
      · simp [hw0]
      · simp only [if_neg hw0, ih]

theorem bfGE_refl (a : Nat × List Int) : bfGE a a := ⟨le_rfl, fun _ => le_rfl⟩

theorem bfGE_trans {a b c : Nat × List Int} (h1 : bfGE a b) (h2 : bfGE b c) :
    bfGE a c := by
  obtain ⟨h11, h12⟩ := h1
  obtain ⟨h21, h22⟩ := h2
  refine ⟨le_trans h21 h11, fun h => ?_⟩
  have e1 : b.1 = a.1 := by omega
  have e2 : c.1 = b.1 := by omega
  exact le_trans (h12 e1) (h22 e2)

/-- Main invariant of the brute-force recursion: the returned state is the
incoming state or a feasible candidate built from a sub-list of the
remaining pallets, it is at least as good (two-level tie-break) as every
feasible candidate of the remaining pallets, and at least as good as the
incoming state. -/
theorem knapsackRecursive_spec (rem : List Pallet) :
    ∀ (cap prof : Nat) (sub : List Int) (best : Nat × List Int),
      (knapsackRecursive rem cap prof sub best = best ∨
        ∃ S, S.Sublist rem ∧ weightSum S ≤ cap ∧
          knapsackRecursive rem cap prof sub best =
            (prof + profitSum S, sub ++ S.map Pallet.id)) ∧
      (∀ S, S.Sublist rem → weightSum S ≤ cap →
        bfGE (knapsackRecursive rem cap prof sub best)
          (prof + profitSum S, sub ++ S.map Pallet.id)) ∧
      bfGE (knapsackRecursive rem cap prof sub best) best := by
  induction rem with
  | nil =>
    intro cap prof sub best
    simp only [knapsackRecursive]
    by_cases h : prof > best.1 ∨ (prof = best.1 ∧ sub.length < best.2.length)
    · rw [if_pos h]
      refine ⟨Or.inr ⟨[], List.nil_sublist _, by simp, by simp⟩, ?_, ?_⟩
      · intro S hS _
        rw [List.sublist_nil.mp hS]
        simp only [profitSum_nil, Nat.add_zero, List.map_nil, List.append_nil]
        exact bfGE_refl _
      · constructor
        · omega
        · intro hEq
          rcases h with h | ⟨h1, h2⟩
          · omega
          · exact Nat.le_of_lt h2
    · rw [if_neg h]
      push_neg at h
      refine ⟨Or.inl rfl, ?_, bfGE_refl _⟩
      intro S hS _
      rw [List.sublist_nil.mp hS]
      simp only [profitSum_nil, Nat.add_zero, List.map_nil, List.append_nil]
      exact ⟨h.1, fun hEq => h.2 hEq⟩
  | cons p rest ih =>
    intro cap prof sub best
    obtain ⟨ih1A, ih1B, ih1C⟩ := ih cap prof sub best
    by_cases hw : p.weight ≤ cap
    · obtain ⟨ih2A, ih2B, ih2C⟩ :=
        ih (cap - p.weight) (prof + p.profit) (sub ++ [p.id])
          (knapsackRecursive rest cap prof sub best)
      have hres : knapsackRecursive (p :: rest) cap prof sub best =
          knapsackRecursive rest (cap - p.weight) (prof + p.profit)
            (sub ++ [p.id]) (knapsackRecursive rest cap prof sub best) := by
        simp only [knapsackRecursive, if_pos hw]
      rw [hres]
      refine ⟨?_, ?_, ?_⟩
      · rcases ih2A with h | ⟨S, hS, hwS, hEq⟩
        · rw [h]
          rcases ih1A with h1 | ⟨S, hS, hwS, hEq⟩
          · exact Or.inl h1
          · exact Or.inr ⟨S, List.Sublist.cons p hS, hwS, hEq⟩
        · refine Or.inr ⟨p :: S, List.Sublist.cons₂ p hS, ?_, ?_⟩
          · simp only [weightSum_cons]
            omega
          · rw [hEq]
            simp [Nat.add_assoc, List.append_assoc]
      · intro S hS hwS
        cases hS with
        | cons _ hS1 =>
          exact bfGE_trans ih2C (ih1B S hS1 hwS)
        | cons₂ _ hS1 =>
          rename_i S1
          have hw1 : weightSum S1 ≤ cap - p.weight := by
            simp only [weightSum_cons] at hwS
            omega
          have hcand :
              (prof + profitSum (p :: S1), sub ++ (p :: S1).map Pallet.id) =
                ((prof + p.profit) + profitSum S1,
                  (sub ++ [p.id]) ++ S1.map Pallet.id) := by
            simp [Nat.add_assoc, List.append_assoc]
          rw [hcand]
          exact ih2B S1 hS1 hw1
      · exact bfGE_trans ih2C ih1C
    · have hres : knapsackRecursive (p :: rest) cap prof sub best =
          knapsackRecursive rest cap prof sub best := by
        simp only [knapsackRecursive, if_neg hw]
      rw [hres]
      refine ⟨?_, ?_, ih1C⟩
      · rcases ih1A with h1 | ⟨S, hS, hwS, hEq⟩
        · exact Or.inl h1
        · exact Or.inr ⟨S, List.Sublist.cons p hS, hwS, hEq⟩
      · intro S hS hwS
        cases hS with
        | cons _ hS1 => exact ih1B S hS1 hwS
        | cons₂ _ hS1 =>
          exfalso
          simp only [weightSum_cons] at hwS
          omega

/-- Full specification of `KBruteForce`: it reports a feasible sub-list of
maximal profit and, among the feasible sub-lists of that profit, of
minimal cardinality. -/
theorem KBruteForce_spec (C : Nat) (l : List Pallet) :
    ∃ S, S.Sublist l ∧ weightSum S ≤ C ∧
      KBruteForce C l = (profitSum S, S.map Pallet.id) ∧
      (∀ T, T.Sublist l → weightSum T ≤ C → profitSum T ≤ profitSum S) ∧
      (∀ T, T.Sublist l → weightSum T ≤ C → profitSum T = profitSum S →
        S.length ≤ T.length) := by
  obtain ⟨hA, hB, _⟩ := knapsackRecursive_spec l C 0 [] (0, [])
  have hKB : KBruteForce C l = knapsackRecursive l C 0 [] (0, []) := rfl
  have hcand : ∃ S, S.Sublist l ∧ weightSum S ≤ C ∧
      KBruteForce C l = (profitSum S, S.map Pallet.id) := by
    rcases hA with h | ⟨S, hS, hwS, hEq⟩
    · exact ⟨[], List.nil_sublist _, by simp, by rw [hKB, h]; rfl⟩
    · exact ⟨S, hS, hwS, by rw [hKB, hEq]; simp⟩
  obtain ⟨S, hS, hwS, hEq⟩ := hcand
  refine ⟨S, hS, hwS, hEq, ?_, ?_⟩
  · intro T hT hwT
    have := hB T hT hwT
    rw [← hKB, hEq] at this
    have h1 := this.1
    simpa using h1
  · intro T hT hwT hpT
    have := hB T hT hwT
    rw [← hKB, hEq] at this
    have h2 := this.2 (by simpa using hpT)
    simpa using h2

/-- The profit `KBruteForce` returns is the specification optimum. -/
theorem KBruteForce_fst (C : Nat) (l : List Pallet) :
    (KBruteForce C l).1 = bestP C l := by
  obtain ⟨S, hS, hw, hEq, hOpt, _⟩ := KBruteForce_spec C l
  rw [hEq]
  apply Nat.le_antisymm
  · exact profitSum_le_bestP hS hw
  · obtain ⟨T, hT, hwT, hpT⟩ := bestP_attained C l
    rw [← hpT]
    exact hOpt T hT hwT

theorem insertByRatio_perm (p : Pallet) (l : List Pallet) :
    (insertByRatio p l).Perm (p :: l) := by
  induction l with
  | nil => exact List.Perm.refl _
  | cons q qs ih =>
    simp only [insertByRatio]
    by_cases h : ratioGT p q
    · rw [if_pos h]
    · rw [if_neg h]
      exact (ih.cons q).trans (List.Perm.swap p q qs)

theorem sortByRatio_perm (l : List Pallet) : (sortByRatio l).Perm l := by
  induction l with
  | nil => exact List.Perm.refl _
  | cons p ps ih =>
    exact (insertByRatio_perm p (sortByRatio ps)).trans (ih.cons p)

/-- Invariant of the greedy filling loop: starting below capacity, it ends
on a feasible sub-list of the remaining pallets, with matching accumulated
profit, weight and ids. -/
theorem greedyGo_spec (capacity : Nat) (rem : List Pallet) :
    ∀ (tp tw : Nat) (ids : List Int), tw ≤ capacity →
      ∃ S, S.Sublist rem ∧ tw + weightSum S ≤ capacity ∧
        greedyGo capacity rem tp tw ids =
          (tp + profitSum S, tw + weightSum S, ids ++ S.map Pallet.id) := by
  induction rem with
  | nil =>
    intro tp tw ids h
    exact ⟨[], List.nil_sublist _, by simpa, by simp [greedyGo]⟩
  | cons p rest ih =>
    intro tp tw ids h
    by_cases hw : tw + p.weight ≤ capacity
    · obtain ⟨S, hS, hwS, hEq⟩ := ih (tp + p.profit) (tw + p.weight) (ids ++ [p.id]) hw
      refine ⟨p :: S, List.Sublist.cons₂ p hS, ?_, ?_⟩
      · simp only [weightSum_cons]
        omega
      · simp only [greedyGo, if_pos hw]
        rw [hEq]
        simp [Nat.add_assoc, List.append_assoc]
    · obtain ⟨S, hS, hwS, hEq⟩ := ih tp tw ids h
      refine ⟨S, List.Sublist.cons p hS, hwS, ?_⟩
      simpa only [greedyGo, if_neg hw] using hEq

/-- The greedy profit never exceeds the specification optimum. -/
theorem KProxy_fst_le_bestP (C : Nat) (l : List Pallet) :
    (KProxy C l).1 ≤ bestP C l := by
  obtain ⟨S, hS, hwS, hEq⟩ :=
    greedyGo_spec C (sortByRatio l) 0 0 [] (Nat.zero_le C)
  show (greedyGo C (sortByRatio l) 0 0 []).1 ≤ bestP C l
  rw [hEq]
  simp only [Nat.zero_add]
  exact profitSum_le_bestP_of_subperm
    (hS.subperm.trans (sortByRatio_perm l).subperm) (by omega)

theorem bbGE_refl (a : BBState) : bbGE a a :=
  ⟨le_rfl, fun _ => ⟨le_rfl, fun _ => le_rfl⟩⟩

theorem bbGE_trans {a b c : BBState} (h1 : bbGE a b) (h2 : bbGE b c) :
    bbGE a c := by
  obtain ⟨h11, h12⟩ := h1
  obtain ⟨h21, h22⟩ := h2
  refine ⟨le_trans h21 h11, fun hp => ?_⟩
  have e1 : b.bestProfit = a.bestProfit := by omega
  have e2 : c.bestProfit = b.bestProfit := by omega
  obtain ⟨h13, h14⟩ := h12 e1
  obtain ⟨h23, h24⟩ := h22 e2
  refine ⟨le_trans h13 h23, fun hl => ?_⟩
  have e3 : a.bestSelection.length = b.bestSelection.length := by omega
  have e4 : b.bestSelection.length = c.bestSelection.length := by omega
  exact le_trans (h14 e3) (h24 e4)

/-- Main invariant of the branch-and-bound recursion, for calls whose
accumulated weight is still within capacity (as every reachable call is):
the returned state is the incoming state or a feasible candidate from the
remaining pallets, it is at least as good (three-level tie-break) as every
feasible candidate, and at least as good as the incoming state. -/
theorem bbGo_spec (capacity : Nat) (rem : List Pallet) :
    ∀ (cw cp : Nat) (sel : List Int) (st : BBState), cw ≤ capacity →
      (bbGo capacity rem cw cp sel st = st ∨
        ∃ S, S.Sublist rem ∧ cw + weightSum S ≤ capacity ∧
          bbGo capacity rem cw cp sel st =
            ⟨sel ++ S.map Pallet.id, cp + profitSum S, cw + weightSum S⟩) ∧
      (∀ S, S.Sublist rem → cw + weightSum S ≤ capacity →
        bbGE (bbGo capacity rem cw cp sel st)
          ⟨sel ++ S.map Pallet.id, cp + profitSum S, cw + weightSum S⟩) ∧
      bbGE (bbGo capacity rem cw cp sel st) st := by
  induction rem with
  | nil =>
    intro cw cp sel st hcw
    simp only [bbGo]
    by_cases h : cp > st.bestProfit ∨
        (cp = st.bestProfit ∧
          (sel.length < st.bestSelection.length ∨
            (sel.length = st.bestSelection.length ∧ cw < st.bestWeight)))
    · rw [if_pos h]
      refine ⟨Or.inr ⟨[], List.nil_sublist _, by simpa using hcw, by simp⟩, ?_, ?_⟩
      · intro S hS _
        rw [List.sublist_nil.mp hS]
        simp only [List.map_nil, List.append_nil, profitSum_nil, weightSum_nil,
          Nat.add_zero]
        exact bbGE_refl _
      · simp only [bbGE]
        omega
    · rw [if_neg h]
      push_neg at h
      refine ⟨Or.inl rfl, ?_, bbGE_refl _⟩
      intro S hS _
      rw [List.sublist_nil.mp hS]
      simp only [List.map_nil, List.append_nil, profitSum_nil, weightSum_nil,
        Nat.add_zero]
      simp only [bbGE]
      omega
  | cons p rest ih =>
    intro cw cp sel st hcw
    by_cases hw : cw + p.weight ≤ capacity
    · obtain ⟨ih2A, ih2B, ih2C⟩ :=
        ih (cw + p.weight) (cp + p.profit) (sel ++ [p.id]) st hw
      obtain ⟨ih1A, ih1B, ih1C⟩ :=
        ih cw cp sel
          (bbGo capacity rest (cw + p.weight) (cp + p.profit) (sel ++ [p.id]) st) hcw
      have hres : bbGo capacity (p :: rest) cw cp sel st =
          bbGo capacity rest cw cp sel
            (bbGo capacity rest (cw + p.weight) (cp + p.profit) (sel ++ [p.id]) st) := by
        simp only [bbGo, if_pos hw]
      rw [hres]
      refine ⟨?_, ?_, ?_⟩
      · rcases ih1A with h1 | ⟨S, hS, hwS, hEq⟩
        · rw [h1]
          rcases ih2A with h2 | ⟨S, hS, hwS, hEq⟩
          · exact Or.inl h2
          · refine Or.inr ⟨p :: S, List.Sublist.cons₂ p hS, ?_, ?_⟩
            · simp only [weightSum_cons]
              omega
            · rw [hEq]
              simp [Nat.add_assoc, List.append_assoc]
        · exact Or.inr ⟨S, List.Sublist.cons p hS, hwS, hEq⟩
      · intro S hS hwS
        cases hS with
        | cons _ hS1 => exact ih1B S hS1 hwS
        | cons₂ _ hS1 =>
          rename_i S1
          have hw1 : (cw + p.weight) + weightSum S1 ≤ capacity := by
            simp only [weightSum_cons] at hwS
            omega
          have hcand :
              (⟨sel ++ (p :: S1).map Pallet.id, cp + profitSum (p :: S1),
                cw + weightSum (p :: S1)⟩ : BBState) =
                ⟨(sel ++ [p.id]) ++ S1.map Pallet.id,
                  (cp + p.profit) + profitSum S1,
                  (cw + p.weight) + weightSum S1⟩ := by
            simp [Nat.add_assoc, List.append_assoc]
          rw [hcand]
          exact bbGE_trans ih1C (ih2B S1 hS1 hw1)
      · exact bbGE_trans ih1C ih2C
    · obtain ⟨ih1A, ih1B, ih1C⟩ := ih cw cp sel st hcw
      have hres : bbGo capacity (p :: rest) cw cp sel st =
          bbGo capacity rest cw cp sel st := by
        simp only [bbGo, if_neg hw]
      rw [hres]
      refine ⟨?_, ?_, ih1C⟩
      · rcases ih1A with h1 | ⟨S, hS, hwS, hEq⟩
        · exact Or.inl h1
        · exact Or.inr ⟨S, List.Sublist.cons p hS, hwS, hEq⟩
      · intro S hS hwS
        cases hS with
        | cons _ hS1 => exact ih1B S hS1 hwS
        | cons₂ _ hS1 =>
          exfalso
          simp only [weightSum_cons] at hwS
          omega

/-- Full specification of `solveILP`: the reported selection is a feasible
sub-list, `totalProfit` is its profit, `totalWeight` is the id-lookup
recomputation the C++ code performs, and the selection is optimal under the
three-level tie-break: maximal profit, then minimal cardinality, then
minimal total weight. -/
theorem solveILP_spec (l : List Pallet) (C : Nat) :
    ∃ S, S.Sublist l ∧ weightSum S ≤ C ∧
      (solveILP l C).selectedPallets = S.map Pallet.id ∧
      (solveILP l C).totalProfit = profitSum S ∧
      (solveILP l C).totalWeight = ((S.map Pallet.id).map (weightOfId l)).sum ∧
      (∀ T, T.Sublist l → weightSum T ≤ C → profitSum T ≤ profitSum S) ∧
      (∀ T, T.Sublist l → weightSum T ≤ C → profitSum T = profitSum S →
        S.length ≤ T.length) ∧
      (∀ T, T.Sublist l → weightSum T ≤ C → profitSum T = profitSum S →
        T.length = S.length → weightSum S ≤ weightSum T) := by
  cases l with
  | nil =>
    refine ⟨[], List.Sublist.refl _, by simp, rfl, rfl, rfl, ?_, ?_, ?_⟩
    · intro T hT _
      rw [List.sublist_nil.mp hT]
    · intro T _ _ _
      simp
    · intro T hT _ _ _
      rw [List.sublist_nil.mp hT]
  | cons p ps =>
    obtain ⟨hA, hB, _⟩ :=
      bbGo_spec C (p :: ps) 0 0 [] ⟨[], 0, intMax⟩ (Nat.zero_le C)
    have hbb : branchAndBound (p :: ps) C 0 0 [] ⟨[], 0, intMax⟩ =
        bbGo C (p :: ps) 0 0 [] ⟨[], 0, intMax⟩ := by
      simp [branchAndBound]
    rcases hA with h | ⟨S, hS, hwS, hEq⟩
    · exfalso
      have h0 := hB [] (List.nil_sublist _) (by simp)
      rw [h] at h0
      simp [bbGE, intMax] at h0
    · have hst : branchAndBound (p :: ps) C 0 0 [] ⟨[], 0, intMax⟩ =
          ⟨S.map Pallet.id, profitSum S, weightSum S⟩ := by
        rw [hbb, hEq]
        simp
      have hres : solveILP (p :: ps) C =
          { selectedPallets := S.map Pallet.id
            totalProfit := profitSum S
            totalWeight := ((S.map Pallet.id).map (weightOfId (p :: ps))).sum } := by
        simp only [solveILP, hst]
      refine ⟨S, hS, by omega, by rw [hres], by rw [hres], by rw [hres], ?_, ?_, ?_⟩
      · intro T hT hwT
        have hBE := hB T hT (by simpa using hwT)
        rw [hEq] at hBE
        have h1 := hBE.1
        simpa using h1
      · intro T hT hwT hpT
        have hBE := hB T hT (by simpa using hwT)
        rw [hEq] at hBE
        have h2 := (hBE.2 (by simpa using hpT)).1
        simpa using h2
      · intro T hT hwT hpT hlT
        have hBE := hB T hT (by simpa using hwT)
        rw [hEq] at hBE
        have h3 := (hBE.2 (by simpa using hpT)).2 (by simpa using hlT.symm)
        simpa using h3

/-- When all ids are distinct, looking up the id of a pallet of the list
finds that very pallet. -/
theorem find?_id_of_mem {l : List Pallet} (hnd : (l.map Pallet.id).Nodup)
    {p : Pallet} (hp : p ∈ l) :
    l.find? (fun q => q.id == p.id) = some p := by
  induction l with
  | nil => cases hp
  | cons q qs ih =>
    simp only [List.map_cons, List.nodup_cons] at hnd
    obtain ⟨hq, hnd1⟩ := hnd
    rcases List.mem_cons.mp hp with rfl | hp1
    · simp [List.find?]
    · have hne : ¬ (q.id == p.id) = true := by
        simp only [beq_iff_eq]
        intro h
        exact hq (h ▸ List.mem_map_of_mem Pallet.id hp1)
      rw [List.find?_cons_of_neg qs hne]
      exact ih hnd1 hp1

/-- With distinct ids, mapped id-lookups over a sub-list recover its
weights. -/
theorem map_weightOfId_of_nodup {l S : List Pallet}
    (hnd : (l.map Pallet.id).Nodup) (hS : S.Sublist l) :
    (S.map Pallet.id).map (weightOfId l) = S.map Pallet.weight := by
  rw [List.map_map]
  apply List.map_congr_left
  intro p hp
  simp only [Function.comp_apply, weightOfId,
    find?_id_of_mem hnd (hS.subset hp)]

/-- With distinct ids, mapped id-lookups over a sub-list recover its
profits. -/
theorem map_profitOfId_of_nodup {l S : List Pallet}
    (hnd : (l.map Pallet.id).Nodup) (hS : S.Sublist l) :
    (S.map Pallet.id).map (profitOfId l) = S.map Pallet.profit := by
  rw [List.map_map]
  apply List.map_congr_left
  intro p hp
  simp only [Function.comp_apply, profitOfId,
    find?_id_of_mem hnd (hS.subset hp)]

/-- C1: for every capacity and every item list with non-negative weights
and profits, the profit returned by the dynamic programming solver
`KDynamic` equals the profit returned by the exhaustive solver
`KBruteForce`; both equal the specification optimum `bestP`. -/
theorem c1_dp_profit_eq_bruteforce_profit (C : Nat) (l : List Pallet) :
    (KDynamic C l).1 = (KBruteForce C l).1 := by
  rw [KDynamic_fst, KBruteForce_fst]

/-- C2: the selection returned by `solveILP` maximizes total profit over
all feasible sub-lists; among the maximum-profit feasible sub-lists it has
minimal cardinality; and among those of minimal cardinality it has minimal
total weight. -/
theorem c2_solveILP_three_level_optimal (l : List Pallet) (C : Nat) :
    ∃ S, S.Sublist l ∧ weightSum S ≤ C ∧
      (solveILP l C).selectedPallets = S.map Pallet.id ∧
      (∀ T, T.Sublist l → weightSum T ≤ C → profitSum T ≤ profitSum S) ∧
      (∀ T, T.Sublist l → weightSum T ≤ C → profitSum T = profitSum S →
        S.length ≤ T.length) ∧
      (∀ T, T.Sublist l → weightSum T ≤ C → profitSum T = profitSum S →
        T.length = S.length → weightSum S ≤ weightSum T) := by
  obtain ⟨S, h1, h2, h3, _, _, h6, h7, h8⟩ := solveILP_spec l C
  exact ⟨S, h1, h2, h3, h6, h7, h8⟩

/-- C3: for item lists with distinct ids, the `ILPResult` of `solveILP`
satisfies `totalProfit = sum of the profits of the items named in
selectedPallets`, `totalWeight = sum of their weights`, and
`totalWeight ≤ capacity`. -/
theorem c3_solveILP_result_consistent (l : List Pallet) (C : Nat)
    (hnd : (l.map Pallet.id).Nodup) :
    (solveILP l C).totalProfit =
      ((solveILP l C).selectedPallets.map (profitOfId l)).sum ∧
    (solveILP l C).totalWeight =
      ((solveILP l C).selectedPallets.map (weightOfId l)).sum ∧
    (solveILP l C).totalWeight ≤ C := by
  obtain ⟨S, hS, hwS, hsel, hprof, hwt, _, _, _⟩ := solveILP_spec l C
  have hw : ((S.map Pallet.id).map (weightOfId l)).sum = weightSum S := by
    rw [map_weightOfId_of_nodup hnd hS]
    rfl
  refine ⟨?_, ?_, ?_⟩
  · rw [hprof, hsel, map_profitOfId_of_nodup hnd hS]
    rfl
  · rw [hwt, hsel]
  · rw [hwt, hw]
    exact hwS

/-- Witness for C3 at the concrete scenario instance. -/
theorem c3_witness :
    (([(⟨1, 5, 10⟩ : Pallet), ⟨2, 4, 40⟩, ⟨3, 6, 30⟩].map Pallet.id).Nodup) ∧
    ((solveILP [⟨1, 5, 10⟩, ⟨2, 4, 40⟩, ⟨3, 6, 30⟩] 10).totalProfit =
      ((solveILP [⟨1, 5, 10⟩, ⟨2, 4, 40⟩, ⟨3, 6, 30⟩] 10).selectedPallets.map
        (profitOfId [⟨1, 5, 10⟩, ⟨2, 4, 40⟩, ⟨3, 6, 30⟩])).sum ∧
     (solveILP [⟨1, 5, 10⟩, ⟨2, 4, 40⟩, ⟨3, 6, 30⟩] 10).totalWeight =
      ((solveILP [⟨1, 5, 10⟩, ⟨2, 4, 40⟩, ⟨3, 6, 30⟩] 10).selectedPallets.map
        (weightOfId [⟨1, 5, 10⟩, ⟨2, 4, 40⟩, ⟨3, 6, 30⟩])).sum ∧
     (solveILP [⟨1, 5, 10⟩, ⟨2, 4, 40⟩, ⟨3, 6, 30⟩] 10).totalWeight ≤ 10) :=
  ⟨by decide, c3_solveILP_result_consistent _ 10 (by decide)⟩

/-- C4: for positive weights, the greedy profit of `KProxy` never exceeds
the optimal profit of `KDynamic`. -/
theorem c4_greedy_profit_le_dp_profit (C : Nat) (l : List Pallet)
    (_hpos : ∀ p ∈ l, 0 < p.weight) :
    (KProxy C l).1 ≤ (KDynamic C l).1 := by
  rw [KDynamic_fst]
  exact KProxy_fst_le_bestP C l

/-- Witness for C4 at the concrete scenario instance. -/
theorem c4_witness :
    (∀ p ∈ [(⟨1, 5, 10⟩ : Pallet), ⟨2, 4, 40⟩, ⟨3, 6, 30⟩], 0 < p.weight) ∧
    (KProxy 10 [⟨1, 5, 10⟩, ⟨2, 4, 40⟩, ⟨3, 6, 30⟩]).1 ≤
      (KDynamic 10 [⟨1, 5, 10⟩, ⟨2, 4, 40⟩, ⟨3, 6, 30⟩]).1 :=
  ⟨by decide, c4_greedy_profit_le_dp_profit 10 _ (by decide)⟩

/-- C5: `KBruteForce` returns the maximum feasible profit, and its reported
selection has the smallest cardinality among all feasible sub-lists
attaining that profit. -/
theorem c5_bruteforce_max_profit_min_cardinality (C : Nat) (l : List Pallet) :
    ∃ S, S.Sublist l ∧ weightSum S ≤ C ∧
      KBruteForce C l = (profitSum S, S.map Pallet.id) ∧
      (∀ T, T.Sublist l → weightSum T ≤ C → profitSum T ≤ profitSum S) ∧
      (∀ T, T.Sublist l → weightSum T ≤ C → profitSum T = profitSum S →
        S.length ≤ T.length) :=
  KBruteForce_spec C l

/-- Counterexample to C6 as stated: with the zero-weight item
`{id 1, weight 0, profit 5}` and capacity 0, `KDynamic` returns profit 5
but reconstructs the empty selection (the walk stops at `w = 0`), whose
total profit 0 differs from the returned profit. -/
theorem c6_counterexample :
    (KDynamic 0 [⟨1, 0, 5⟩]).1 = 5 ∧ (KDynamic 0 [⟨1, 0, 5⟩]).2 = [] ∧
    ((KDynamic 0 [⟨1, 0, 5⟩]).2.map (profitOfId [⟨1, 0, 5⟩])).sum ≠
      (KDynamic 0 [⟨1, 0, 5⟩]).1 := by
  decide

/-- C6 amended (restricted to positive weights, which the original claim
permitted to be zero): the selection reconstructed by the backward walk of
`KDynamic` names distinct items forming a feasible sub-list whose total
profit equals the returned profit `dp[n][C]`. -/
theorem c6_amended_reconstruction_consistent (C : Nat) (l : List Pallet)
    (hpos : ∀ p ∈ l, 0 < p.weight) :
    ∃ S, S.Sublist l ∧ (KDynamic C l).2 = S.map Pallet.id ∧
      weightSum S ≤ C ∧ profitSum S = (KDynamic C l).1 :=
  KDynamic_spec C l hpos

/-- Witness for the amended C6 at the concrete scenario instance. -/
theorem c6_witness :
    (∀ p ∈ [(⟨1, 5, 10⟩ : Pallet), ⟨2, 4, 40⟩, ⟨3, 6, 30⟩], 0 < p.weight) ∧
    (∃ S, S.Sublist [(⟨1, 5, 10⟩ : Pallet), ⟨2, 4, 40⟩, ⟨3, 6, 30⟩] ∧
      (KDynamic 10 [⟨1, 5, 10⟩, ⟨2, 4, 40⟩, ⟨3, 6, 30⟩]).2 = S.map Pallet.id ∧
      weightSum S ≤ 10 ∧
      profitSum S = (KDynamic 10 [⟨1, 5, 10⟩, ⟨2, 4, 40⟩, ⟨3, 6, 30⟩]).1) :=
  ⟨by decide, c6_amended_reconstruction_consistent 10 _ (by decide)⟩

/-- Counterexample to C7 as stated: with the zero-weight item
`{id 1, weight 0, profit 5}` (a non-negative weight, as the claim allows)
every solver returns profit 5 at capacity 0, not 0. -/
theorem c7_counterexample :
    (KBruteForce 0 [⟨1, 0, 5⟩]).1 ≠ 0 ∧ (KDynamic 0 [⟨1, 0, 5⟩]).1 ≠ 0 ∧
    (KProxy 0 [⟨1, 0, 5⟩]).1 ≠ 0 ∧
    (solveILP [⟨1, 0, 5⟩] 0).totalProfit ≠ 0 := by
  decide

/-- C7 amended (restricted to positive weights): on every non-empty item
list, all four solvers return profit 0 and an empty selection at
capacity 0. -/
theorem c7_amended_capacity_zero (l : List Pallet) (_hne : l ≠ [])
    (hpos : ∀ p ∈ l, 0 < p.weight) :
    KBruteForce 0 l = (0, []) ∧ KDynamic 0 l = (0, []) ∧
    KProxy 0 l = (0, 0, []) ∧ solveILP l 0 = ⟨[], 0, 0⟩ := by
  refine ⟨?_, ?_, ?_, ?_⟩
  · obtain ⟨S, hS, hw, hEq, _, _⟩ := KBruteForce_spec 0 l
    have hS0 : S = [] :=
      eq_nil_of_weightSum_zero (fun p hp => hpos p (hS.subset hp)) (by omega)
    subst hS0
    simpa using hEq
  · show ((dpc l l.length 0).1, (recRev l l.length 0).reverse) = (0, [])
    rw [recRev_zero, dpc_fst, dpNoCount_eq_bestP l l.length le_rfl,
      List.take_length, bestP_zero_of_pos hpos]
    rfl
  · obtain ⟨S, hS, hwS, hEq⟩ :=
      greedyGo_spec 0 (sortByRatio l) 0 0 [] le_rfl
    have hS0 : S = [] := by
      refine eq_nil_of_weightSum_zero (fun p hp => ?_) (by omega)
      exact hpos p ((sortByRatio_perm l).subset (hS.subset hp))
    subst hS0
    show greedyGo 0 (sortByRatio l) 0 0 [] = (0, 0, [])
    simpa using hEq
  · obtain ⟨S, hS, hwS, hsel, hprof, hwt, _, _, _⟩ := solveILP_spec l 0
    have hS0 : S = [] :=
      eq_nil_of_weightSum_zero (fun p hp => hpos p (hS.subset hp)) (by omega)
    subst hS0
    simp only [List.map_nil] at hsel hwt
    rcases hrep : solveILP l 0 with ⟨a, b, c⟩
    rw [hrep] at hsel hprof hwt
    simp only [List.map_nil, List.sum_nil] at hsel hprof hwt
    simp [hsel, hprof, hwt]

/-- Witness for the amended C7 at a concrete one-item instance. -/
theorem c7_witness :
    ([(⟨1, 5, 10⟩ : Pallet)] ≠ [] ∧
      ∀ p ∈ [(⟨1, 5, 10⟩ : Pallet)], 0 < p.weight) ∧
    KBruteForce 0 [⟨1, 5, 10⟩] = (0, []) ∧
    KDynamic 0 [⟨1, 5, 10⟩] = (0, []) ∧
    KProxy 0 [⟨1, 5, 10⟩] = (0, 0, []) ∧
    solveILP [⟨1, 5, 10⟩] 0 = ⟨[], 0, 0⟩ :=
  ⟨⟨by decide, by decide⟩, c7_amended_capacity_zero _ (by decide) (by decide)⟩

/-- C8: on the empty item list every solver returns profit 0 with an empty
selection for every capacity, `solveILP` produces the all-zero `ILPResult`,
and the empty-input short-circuit of `branchAndBound` returns the incoming
state untouched without entering the include/exclude recursion. -/
theorem c8_empty_list (C : Nat) :
    KBruteForce C [] = (0, []) ∧ KDynamic C [] = (0, []) ∧
    KProxy C [] = (0, 0, []) ∧ solveILP [] C = ⟨[], 0, 0⟩ ∧
    (∀ (cw cp : Nat) (sel : List Int) (st : BBState),
      branchAndBound [] C cw cp sel st = st) := by
  refine ⟨?_, rfl, rfl, rfl, ?_⟩
  · simp [KBruteForce, knapsackRecursive]
  · intro cw cp sel st
    simp [branchAndBound]

/-- C9: on the scenario instance (capacity 10, items
`{1,w5,p10}, {2,w4,p40}, {3,w6,p30}`) all four solvers return profit 70,
the exact solvers report the selection `[2, 3]`, and `solveILP` reports
total weight 10. -/
theorem c9_scenario_instance :
    KBruteForce 10 [⟨1, 5, 10⟩, ⟨2, 4, 40⟩, ⟨3, 6, 30⟩] = (70, [2, 3]) ∧
    KDynamic 10 [⟨1, 5, 10⟩, ⟨2, 4, 40⟩, ⟨3, 6, 30⟩] = (70, [2, 3]) ∧
    (KProxy 10 [⟨1, 5, 10⟩, ⟨2, 4, 40⟩, ⟨3, 6, 30⟩]).1 = 70 ∧
    solveILP [⟨1, 5, 10⟩, ⟨2, 4, 40⟩, ⟨3, 6, 30⟩] 10 = ⟨[2, 3], 70, 10⟩ := by
  refine ⟨by decide, by decide, ?_, by decide⟩
  have h23 : ratioGT ⟨2, 4, 40⟩ ⟨3, 6, 30⟩ = true := by
    simp only [ratioGT, decide_eq_true_eq]
    norm_num
  have h12 : ratioGT ⟨1, 5, 10⟩ ⟨2, 4, 40⟩ = false := by
    simp only [ratioGT, decide_eq_false_iff_not]
    norm_num
  have h13 : ratioGT ⟨1, 5, 10⟩ ⟨3, 6, 30⟩ = false := by
    simp only [ratioGT, decide_eq_false_iff_not]
    norm_num
  have h1 : sortByRatio [(⟨1, 5, 10⟩ : Pallet), ⟨2, 4, 40⟩, ⟨3, 6, 30⟩] =
      [⟨2, 4, 40⟩, ⟨3, 6, 30⟩, ⟨1, 5, 10⟩] := by
    simp [sortByRatio, insertByRatio, h23, h12, h13]
  show (greedyGo 10 (sortByRatio [⟨1, 5, 10⟩, ⟨2, 4, 40⟩, ⟨3, 6, 30⟩]) 0 0 []).1 = 70
  rw [h1]
  decide

/-- C10: the auxiliary count table has no effect on any output of
`KDynamic`: the profit and the reconstructed selection coincide with the
variant computed without the count table. -/
theorem c10_count_table_has_no_effect (C : Nat) (l : List Pallet) :
    KDynamic C l = KDynamicNoCount C l := by
  show ((dpc l l.length C).1, (recRev l l.length C).reverse) =
    (dpNoCount l l.length C, (recRevNoCount l l.length C).reverse)
  rw [dpc_fst, recRev_eq_noCount]
